import Mathlib

/-!
# Verification of the go-disruptor core

Shallow embedding of the `five-vee/go-disruptor` repository:

* pure helper functions (`unwrap`, the branchless minimum of
  `MinimumBarrier.Load`, builder validation, the `Write`/`WriteBatch`
  guard checks, the try-variant ring buffer), translated from the Go
  source with Go's `int64` arithmetic modelled as `ℤ` (all values stay
  far from the 64-bit boundaries, which the theorems make explicit where
  the arithmetic right shift by 63 is involved);
* a small-step transition system for the single-writer / reader-group
  pipeline of `Disruptor` (`Write`, `WriteBatch`, `reserve`, `commit`,
  the reader loops of `internal/reader` and the barrier wiring of the
  builder), over which the delivery, bounded-lag and close properties
  are proved.
-/

namespace GoDisruptor

/-- Arithmetic shift right by 63 of a 64-bit value, as used by the Go
source (`(j - i) >> 63`).  On `ℤ` the shift-right instance is the
arithmetic (floor) shift, which agrees with Go's `int64` shift for all
values representable in 64 bits. -/
def sar63 (d : ℤ) : ℤ := d >>> (63 : ℤ)

/-- `unwrap` from `Disruptor.WriteBatch`'s helper (and the identical
copy in `internal/reader`): branchless split of the inclusive index
range `i..j` of a ring buffer of the given capacity into the length up
to the end of the buffer and the length wrapped to the front.

Go source:
```
wrap := ((j - i) >> 63) & 1
mask := -wrap
firstLen := ((j - i + 1) & (^mask)) | ((capacity - i) & mask)
secondLen := (j + 1) & mask
```
-/
def unwrap (capacity i j : ℤ) : ℤ × ℤ :=
  let wrap := Int.land (sar63 (j - i)) 1
  let mask := -wrap
  let firstLen := Int.lor (Int.land (j - i + 1) (Int.lnot mask)) (Int.land (capacity - i) mask)
  let secondLen := Int.land (j + 1) mask
  (firstLen, secondLen)

/-- One reduction step of `MinimumBarrier.Load`:
`diff := minimum - seq; mask := diff >> 63; minimum = seq + (diff & mask)`. -/
def branchlessMin (minimum seq : ℤ) : ℤ :=
  let diff := minimum - seq
  let mask := sar63 diff
  seq + Int.land diff mask

/-- `MinimumBarrier.Load` from `internal/barrier/barrier.go`: starts
from the first loaded cursor and reduces the rest pairwise with the
arithmetic-right-shift minimum idiom.  The Go code requires the list to
be non-empty; the `[]` case is dead code and returns `0`. -/
def minimumBarrierLoad (m : List ℤ) : ℤ :=
  match m with
  | [] => 0
  | b :: rest => rest.foldl branchlessMin b

/-! ### Builder validation (`Builder.validate` / `Builder.Build`) -/

/-- The three construction-time errors of the builder. -/
inductive BuildError : Type
  | errCapacity
  | errMissingReaderGroup
  | errEmptyReaderGroup
  deriving DecidableEq, Repr

/-- `Builder.validate`, translated line by line.  `R` stands for the
opaque `ReaderFunc` values; only the group shape matters. -/
def validate {R : Type} (capacity : ℤ) (readerGroups : List (List R)) : Option BuildError :=
  if capacity ≤ 0 ∨ Int.land capacity (capacity - 1) ≠ 0 then
    some .errCapacity
  else if readerGroups.length = 0 then
    some .errMissingReaderGroup
  else if readerGroups.any (fun readerGroup => readerGroup.length = 0) then
    some .errEmptyReaderGroup
  else
    none

/-- The part of the built `Disruptor` value fixed by `Builder.Build`
(the cursor cells start at zero and the buffer is freshly allocated). -/
structure BuiltDisruptor : Type where
  capacity : ℤ
  mask : ℤ
  deriving DecidableEq, Repr

/-- `Builder.Build`: validate, then assemble the disruptor with
`mask = capacity - 1`. -/
def build {R : Type} (capacity : ℤ) (readerGroups : List (List R)) :
    Except BuildError BuiltDisruptor :=
  match validate capacity readerGroups with
  | some e => .error e
  | none => .ok { capacity := capacity, mask := capacity - 1 }

/-! ### Write-path guards and the reserve loop condition -/

/-- The runtime writer errors (surfaced as panics in the Go code). -/
inductive WriteError : Type
  | batchTooLarge
  | writeAfterClose
  deriving DecidableEq, Repr

/-- The guard of `Disruptor.Write`: panic iff the closer is closed. -/
def writeGuard (closed : Bool) : Option WriteError :=
  if closed then some .writeAfterClose else none

/-- The guards of `Disruptor.WriteBatch`, in source order: first
`n > capacity` (BatchTooLarge), then the closed check (WriteAfterClose). -/
def writeBatchGuard (capacity n : ℤ) (closed : Bool) : Option WriteError :=
  if n > capacity then some .batchTooLarge
  else if closed then some .writeAfterClose
  else none

/-- The loop condition of `Disruptor.reserve`:
`for ; nextWriter >= d.slowestReader.Val+d.capacity; ... { ... }`.
The writer waits (yields and refreshes the cache) exactly while this
condition holds. -/
def reserveWaitCondition (capacity slowestReaderVal nextWriter : ℤ) : Bool :=
  nextWriter ≥ slowestReaderVal + capacity

/-! ### The try-only SPSC ring buffer (`RingBuffer`) -/

/-- State of the try-variant `RingBuffer[T]`.  The buffer array is
modelled as a function from slot index to element. -/
structure RingBuffer (T : Type) : Type where
  size : ℤ
  mask : ℤ
  buffer : ℤ → T
  producerSeq : ℤ
  consumerSeq : ℤ

/-- `NewRingBuffer`: rejects sizes that are not positive powers of two,
otherwise starts with both sequences at zero. -/
def newRingBuffer (T : Type) [Inhabited T] (size : ℤ) : Option (RingBuffer T) :=
  if size ≤ 0 ∨ Int.land size (size - 1) ≠ 0 then none
  else some { size := size, mask := size - 1, buffer := fun _ => default,
              producerSeq := 0, consumerSeq := 0 }

/-- `RingBuffer.TryPublish`: returns `false` (leaving the state
untouched) when the buffer is full, otherwise writes the slot and
advances the producer sequence. -/
def tryPublish {T : Type} (rb : RingBuffer T) (data : T) : RingBuffer T × Bool :=
  let currentProducerSeq := rb.producerSeq
  let nextSeq := currentProducerSeq + 1
  let currentConsumerSeq := rb.consumerSeq
  if nextSeq > currentConsumerSeq + rb.size then
    (rb, false)
  else
    let index := Int.land nextSeq rb.mask
    ({ rb with buffer := Function.update rb.buffer index data, producerSeq := nextSeq }, true)

/-- `RingBuffer.TryConsume`: returns `false` (zero value, state
untouched) when the buffer is empty, otherwise reads the slot and
advances the consumer sequence. -/
def tryConsume {T : Type} [Inhabited T] (rb : RingBuffer T) : RingBuffer T × T × Bool :=
  if rb.consumerSeq ≥ rb.producerSeq then
    (rb, default, false)
  else
    let nextSeq := rb.consumerSeq + 1
    let index := Int.land nextSeq rb.mask
    ({ rb with consumerSeq := nextSeq }, rb.buffer index, true)

/-! ### The pipeline transition system

`Disruptor[T]` with its wired reader groups is modelled as a small-step
transition system.  One writer owns `writeCursor` (the atomic cell),
`cached` (the `slowestReader` shadow) and the buffer; each reader owns a
`cursor` cell, a private dispatch position and the list of items its
callback has observed.  Groups are indexed in pipeline order exactly as
wired by `Builder.wireReaders`: group `0` gates on the write cursor,
group `g+1` on the minimum of group `g`'s cursors, and the writer's
`readBarrier` is the minimum of the last group's cursors. -/

/-- One reader (`SingleReader`/`BatchReader` of `internal/reader`):
`cursor` is its published cursor cell, `progress` the position of its
dispatch loop within the current batch, `target` the `upstream` snapshot
of the current batch (when idle, `cursor = progress = target`), and
`log` records every item handed to the user callback, in order. -/
structure Consumer (α : Type) : Type where
  cursor : ℤ
  progress : ℤ
  target : ℤ
  log : List α

/-- The shape of the reader-group pipeline: group `g` (for
`g < numGroups`) has `groupSize g` readers. -/
structure Topology : Type where
  numGroups : ℕ
  groupSize : ℕ → ℕ

/-- The topologies accepted by `Builder.validate`: at least one group
and no empty group. -/
def Topology.Valid (top : Topology) : Prop :=
  0 < top.numGroups ∧ ∀ g, g < top.numGroups → 0 < top.groupSize g

/-- Global state of a wired disruptor. -/
structure DState (α : Type) : Type where
  writeCursor : ℤ
  cached : ℤ
  pending : ℤ
  closed : Bool
  buffer : ℤ → α
  consumers : ℕ → ℕ → Consumer α

/-- The value of `barrier.MinimumBarrier.Load` over group `g`'s cursor
cells (the minimum; `minimumBarrierLoad_spec` verifies the branchless
reduction separately). -/
def groupMin {α : Type} (s : DState α) (top : Topology) (g : ℕ) : ℤ :=
  ((List.range (top.groupSize g)).map fun k => (s.consumers g k).cursor).foldl min
    (s.consumers g 0).cursor

/-- The upstream barrier of level `g` in the pipeline wiring of
`Builder.wireReaders`: the write cursor for the first group, the
group-minimum of the previous group otherwise.  Level `top.numGroups`
is the writer's `readBarrier`. -/
def barrierValue {α : Type} (s : DState α) (top : Topology) : ℕ → ℤ
  | 0 => s.writeCursor
  | g + 1 => groupMin s top g

/-- Slot index of a sequence: `sequence & mask`. -/
def slot (mask seq : ℤ) : ℤ := Int.land seq mask

/-- Effect on the buffer of the writer's callback for the reserved
sequences `lo, lo+1, …, lo+n-1` (one slot for `Write`, the two
contiguous sub-ranges for `WriteBatch`, written in ascending sequence
order).  `w seq` is the item the user writes for sequence `seq`. -/
def writeSeqs {α : Type} (w : ℤ → α) (mask : ℤ) : (ℤ → α) → ℤ → ℕ → (ℤ → α)
  | buf, _, 0 => buf
  | buf, lo, n + 1 => writeSeqs w mask (Function.update buf (slot mask lo) (w lo)) (lo + 1) n

/-- Replace reader `k` of group `g`. -/
def updateConsumer {α : Type} (s : DState α) (g k : ℕ) (c : Consumer α) : DState α :=
  { s with consumers := Function.update s.consumers g (Function.update (s.consumers g) k c) }

/-- The freshly built state: zeroed cursors, open, zero-valued buffer. -/
def initState (α : Type) [Inhabited α] : DState α :=
  { writeCursor := 0, cached := 0, pending := 0, closed := false,
    buffer := fun _ => default,
    consumers := fun _ _ => { cursor := 0, progress := 0, target := 0, log := [] } }

/-- The items published at sequences `1, …, m`, in publication order. -/
def publishedList {α : Type} (w : ℤ → α) (m : ℤ) : List α :=
  (List.range m.toNat).map fun i => w (((i + 1 : ℕ) : ℤ))

/-- Interleaved small steps of the writer thread and the reader
threads.  `w seq` is the item the writer's callback produces for
sequence `seq`; `cap` is the capacity.

* `writerBegin`: `Write` (`n = 1`) or `WriteBatch` (`1 ≤ n`) passes its
  guards and its `reserve` loop — the loop exits only when
  `nextWriter >= slowestReader.Val + capacity` is false — and the user
  callback fills the reserved slots.
* `writerCommit`: `commit` publishes `writeCursor.Store(nextWriter)`.
* `writerRefresh`: one `slowestReader.Val = readBarrier.Load()` of the
  reserve loop.  The loaded value is between the current shadow and the
  current barrier value: each cursor in the barrier group is
  monotonically non-decreasing, so a (possibly stale) load is bounded by
  the instantaneous minimum and below by any earlier load.
* `writerClose`: `Close()` sets the close flag.
* `readerSnapshot`: an idle reader loads `upstream := U.Load()`; again
  any value between its own cursor and the instantaneous barrier.
* `readerRead`: the dispatch loop hands `buffer[seq & mask]` for the
  next sequence to the user callback.
* `readerPublish`: `cursor.Store(upstream)` after the batch. -/
inductive Step {α : Type} (w : ℤ → α) (cap : ℤ) (top : Topology) :
    DState α → DState α → Prop
  | writerBegin (s : DState α) (n : ℤ) :
      s.closed = false →
      s.pending = 0 →
      1 ≤ n →
      ¬ s.writeCursor + n ≥ s.cached + cap →
      Step w cap top s
        { s with
          pending := n,
          buffer := writeSeqs w (cap - 1) s.buffer (s.writeCursor + 1) n.toNat }
  | writerCommit (s : DState α) :
      0 < s.pending →
      Step w cap top s
        { s with writeCursor := s.writeCursor + s.pending, pending := 0 }
  | writerRefresh (s : DState α) (v : ℤ) :
      s.cached ≤ v →
      v ≤ barrierValue s top top.numGroups →
      Step w cap top s { s with cached := v }
  | writerClose (s : DState α) :
      s.pending = 0 →
      Step w cap top s { s with closed := true }
  | readerSnapshot (s : DState α) (g k : ℕ) (u : ℤ) :
      g < top.numGroups →
      k < top.groupSize g →
      (s.consumers g k).cursor = (s.consumers g k).target →
      (s.consumers g k).progress = (s.consumers g k).target →
      (s.consumers g k).cursor ≤ u →
      u ≤ barrierValue s top g →
      Step w cap top s (updateConsumer s g k { s.consumers g k with target := u })
  | readerRead (s : DState α) (g k : ℕ) :
      g < top.numGroups →
      k < top.groupSize g →
      (s.consumers g k).progress < (s.consumers g k).target →
      Step w cap top s (updateConsumer s g k
        { s.consumers g k with
          progress := (s.consumers g k).progress + 1,
          log := (s.consumers g k).log ++
            [s.buffer (slot (cap - 1) ((s.consumers g k).progress + 1))] })
  | readerPublish (s : DState α) (g k : ℕ) :
      g < top.numGroups →
      k < top.groupSize g →
      (s.consumers g k).progress = (s.consumers g k).target →
      (s.consumers g k).cursor < (s.consumers g k).target →
      Step w cap top s (updateConsumer s g k
        { s.consumers g k with cursor := (s.consumers g k).target })

/-- States reachable from the freshly built disruptor. -/
def Reachable {α : Type} [Inhabited α] (w : ℤ → α) (cap : ℤ) (top : Topology)
    (s : DState α) : Prop :=
  Relation.ReflTransGen (Step w cap top) (initState α) s

/-! ### The protocol invariant -/

/-- The inductive invariant of the pipeline protocol.  `pending` is the
number of sequences the writer has reserved and filled but not yet
committed (`0` between calls). -/
structure Inv {α : Type} (w : ℤ → α) (cap : ℤ) (top : Topology) (s : DState α) :
    Prop where
  wc_nonneg : 0 ≤ s.writeCursor
  pending_nonneg : 0 ≤ s.pending
  closed_pending : s.closed = true → s.pending = 0
  cached_nonneg : 0 ≤ s.cached
  gate : s.writeCursor + s.pending ≤ s.cached + cap - 1
  cached_le_barrier : s.cached ≤ barrierValue s top top.numGroups
  cursor_nonneg : ∀ g k, 0 ≤ (s.consumers g k).cursor
  cursor_le_progress : ∀ g k, (s.consumers g k).cursor ≤ (s.consumers g k).progress
  progress_le_target : ∀ g k, (s.consumers g k).progress ≤ (s.consumers g k).target
  target_le_barrier : ∀ g k, g < top.numGroups → k < top.groupSize g →
    (s.consumers g k).target ≤ barrierValue s top g
  log_eq : ∀ g k, (s.consumers g k).log = publishedList w (s.consumers g k).progress
  buffer_ok : ∀ seq : ℤ, 1 ≤ seq → seq ≤ s.writeCursor + s.pending →
    s.writeCursor + s.pending - cap < seq →
    s.buffer (slot (cap - 1) seq) = w seq

/-- The capacity-2 try-variant ring buffer in its freshly built state. -/
def rb0 : RingBuffer ℤ :=
  { size := 2, mask := 1, buffer := fun _ => 0, producerSeq := 0, consumerSeq := 0 }

/-! ### A concrete run of the pipeline model: one write, committed,
then snapshotted, dispatched and published by the single reader of a
one-group topology with capacity 2. -/

/-- The items written: sequence `s` carries the value `s`. -/
def wId : ℤ → ℤ := fun q => q

/-- One group with one reader. -/
def runTop : Topology := ⟨1, fun _ => 1⟩

/-- After `Write`'s callback filled slot 1 (reserve passed: `1 ≥ 0 + 2`
is false). -/
def runS1 : DState ℤ :=
  { initState ℤ with
    pending := 1,
    buffer := writeSeqs wId (2 - 1) (initState ℤ).buffer ((initState ℤ).writeCursor + 1)
      (1 : ℤ).toNat }

/-- After `commit` published the write cursor. -/
def runS2 : DState ℤ :=
  { runS1 with writeCursor := runS1.writeCursor + runS1.pending, pending := 0 }

/-- After the reader loaded `upstream = 1`. -/
def runS3 : DState ℤ := updateConsumer runS2 0 0 { runS2.consumers 0 0 with target := 1 }

/-- After the reader's callback received `buffer[1 & mask]`. -/
def runS4 : DState ℤ :=
  updateConsumer runS3 0 0
    { runS3.consumers 0 0 with
      progress := (runS3.consumers 0 0).progress + 1,
      log := (runS3.consumers 0 0).log ++
        [runS3.buffer (slot (2 - 1) ((runS3.consumers 0 0).progress + 1))] }

/-- After the reader stored its cursor. -/
def runS5 : DState ℤ :=
  updateConsumer runS4 0 0 { runS4.consumers 0 0 with cursor := (runS4.consumers 0 0).target }

/-- A freshly built disruptor on which `Close()` has been called. -/
def runClosed : DState ℤ := { initState ℤ with closed := true }

/-! ### Facts about the `ℤ` bitwise operations -/

theorem land_zero_right (x : ℤ) : Int.land x 0 = 0 := by
  cases x with
  | ofNat m =>
      show ((m &&& 0 : ℕ) : ℤ) = 0
      simp
  | negSucc m =>
      show ((Nat.ldiff 0 m : ℕ) : ℤ) = 0
      have : Nat.ldiff 0 m = 0 := Nat.eq_of_testBit_eq (by simp [Nat.testBit_ldiff])
      simp [this]

theorem land_neg_one_right (x : ℤ) : Int.land x (-1) = x := by
  cases x with
  | ofNat m =>
      show ((Nat.ldiff m 0 : ℕ) : ℤ) = Int.ofNat m
      have : Nat.ldiff m 0 = m := Nat.eq_of_testBit_eq (by simp [Nat.testBit_ldiff])
      simp [this]
  | negSucc m =>
      show Int.negSucc (m ||| 0) = Int.negSucc m
      simp

theorem lor_zero_right (x : ℤ) : Int.lor x 0 = x := by
  cases x with
  | ofNat m =>
      show ((m ||| 0 : ℕ) : ℤ) = Int.ofNat m
      simp
  | negSucc m =>
      show Int.negSucc (Nat.ldiff m 0) = Int.negSucc m
      have : Nat.ldiff m 0 = m := Nat.eq_of_testBit_eq (by simp [Nat.testBit_ldiff])
      simp [this]

theorem lor_zero_left (x : ℤ) : Int.lor 0 x = x := by
  cases x with
  | ofNat m =>
      show ((0 ||| m : ℕ) : ℤ) = Int.ofNat m
      simp
  | negSucc m =>
      show Int.negSucc (Nat.ldiff m 0) = Int.negSucc m
      have : Nat.ldiff m 0 = m := Nat.eq_of_testBit_eq (by simp [Nat.testBit_ldiff])
      simp [this]

theorem land_neg_one_left (x : ℤ) : Int.land (-1) x = x := by
  cases x with
  | ofNat m =>
      show ((Nat.ldiff m 0 : ℕ) : ℤ) = Int.ofNat m
      have : Nat.ldiff m 0 = m := Nat.eq_of_testBit_eq (by simp [Nat.testBit_ldiff])
      simp [this]
  | negSucc m =>
      show Int.negSucc (0 ||| m) = Int.negSucc m
      simp

theorem lnot_zero : Int.lnot 0 = -1 := rfl

theorem lnot_neg_one : Int.lnot (-1) = 0 := rfl

/-- A non-negative `int64` value shifted arithmetically right by 63 is `0`. -/
theorem sar63_of_nonneg {d : ℤ} (h0 : 0 ≤ d) (h63 : d < 2 ^ 63) : sar63 d = 0 := by
  obtain ⟨m, rfl⟩ := Int.eq_ofNat_of_zero_le h0
  have hm : m < 2 ^ 63 := by exact_mod_cast h63
  show (m : ℤ) >>> ((63 : ℕ) : ℤ) = 0
  rw [Int.shiftRight_coe_nat]
  have : m >>> 63 = 0 := by
    rw [Nat.shiftRight_eq_div_pow]
    exact Nat.div_eq_of_lt hm
  simp [this]

/-- A negative `int64` value shifted arithmetically right by 63 is `-1`. -/
theorem sar63_of_neg {d : ℤ} (h0 : d < 0) (h63 : -2 ^ 63 < d) : sar63 d = -1 := by
  cases d with
  | ofNat m => exact absurd h0 (Int.not_lt.mpr (Int.ofNat_zero_le m))
  | negSucc m =>
      have hm : m < 2 ^ 63 := by
        have : (m : ℤ) < 2 ^ 63 := by
          have := Int.negSucc_eq m ▸ h63
          omega
        exact_mod_cast this
      show Int.negSucc m >>> ((63 : ℕ) : ℤ) = -1
      rw [Int.shiftRight_negSucc]
      have : m >>> 63 = 0 := by
        rw [Nat.shiftRight_eq_div_pow]
        exact Nat.div_eq_of_lt hm
      simp [this]

/-- Behaviour of the branchless split on in-range indices: it agrees
with the conditional form.  The bound `capacity ≤ 2 ^ 63` reflects that
Go capacities are `int64` values, so `|j - i| < capacity` never reaches
the 64-bit boundary. -/
theorem unwrap_eq_cond (capacity i j : ℤ) (hcap : capacity ≤ 2 ^ 63)
    (hi0 : 0 ≤ i) (hiC : i < capacity) (hj0 : 0 ≤ j) (hjC : j < capacity) :
    unwrap capacity i j = if i ≤ j then (j - i + 1, 0) else (capacity - i, j + 1) := by
  by_cases hij : i ≤ j
  · have hs : sar63 (j - i) = 0 := sar63_of_nonneg (by omega) (by omega)
    simp only [unwrap, hs, if_pos hij]
    rw [show Int.land 0 1 = 0 from rfl]
    rw [show (-(0 : ℤ)) = 0 from rfl, lnot_zero, land_neg_one_right, land_zero_right,
      lor_zero_right, land_zero_right]
  · have hs : sar63 (j - i) = -1 := sar63_of_neg (by omega) (by omega)
    simp only [unwrap, hs, if_neg hij]
    rw [show Int.land (-1) 1 = 1 from land_neg_one_left 1]
    rw [show (-(1 : ℤ)) = -1 from rfl, lnot_neg_one, land_zero_right, land_neg_one_right,
      lor_zero_left, land_neg_one_right]

/-- The arithmetic-right-shift minimum idiom computes the minimum, as
long as the difference of the two operands stays inside 64 bits. -/
theorem branchlessMin_eq_min (m s : ℤ) (h : -2 ^ 63 < m - s) (h' : m - s < 2 ^ 63) :
    branchlessMin m s = min m s := by
  show s + Int.land (m - s) (sar63 (m - s)) = min m s
  by_cases hms : m - s < 0
  · rw [sar63_of_neg hms h, land_neg_one_right]
    omega
  · rw [sar63_of_nonneg (by omega) h', land_zero_right]
    omega

theorem foldl_min_le_init (l : List ℤ) (a : ℤ) : l.foldl min a ≤ a := by
  induction l generalizing a with
  | nil => simp
  | cons x xs ih => exact le_trans (ih (min a x)) (min_le_left a x)

theorem foldl_min_le_mem (l : List ℤ) (a x : ℤ) (hx : x ∈ l) : l.foldl min a ≤ x := by
  induction l generalizing a with
  | nil => cases hx
  | cons y ys ih =>
      rcases List.mem_cons.mp hx with rfl | hmem
      · exact le_trans (foldl_min_le_init ys (min a x)) (min_le_right a x)
      · exact ih (min a y) hmem

theorem le_foldl_min (l : List ℤ) (a c : ℤ) (ha : c ≤ a) (hl : ∀ x ∈ l, c ≤ x) :
    c ≤ l.foldl min a := by
  induction l generalizing a with
  | nil => simpa using ha
  | cons y ys ih =>
      exact ih (min a y) (le_min ha (hl y (List.mem_cons_self y ys)))
        (fun x hx => hl x (List.mem_cons_of_mem y hx))

theorem foldl_min_mem (l : List ℤ) (a : ℤ) : l.foldl min a = a ∨ l.foldl min a ∈ l := by
  induction l generalizing a with
  | nil => simp
  | cons y ys ih =>
      rcases ih (min a y) with h | h
      · rcases min_cases a y with ⟨he, _⟩ | ⟨he, _⟩
        · exact Or.inl (by rw [List.foldl_cons, h, he])
        · refine Or.inr ?_
          rw [List.foldl_cons, h, he]
          exact List.mem_cons_self y ys
      · exact Or.inr (List.mem_cons_of_mem y h)

/-- `minimumBarrierLoad` folds `branchlessMin`, which coincides with
`min` as long as all running values stay in `[0, 2^63)`. -/
theorem minimumBarrierLoad_foldl (rest : List ℤ) (a : ℤ)
    (ha : 0 ≤ a ∧ a < 2 ^ 63) (hrest : ∀ x ∈ rest, 0 ≤ x ∧ x < 2 ^ 63) :
    rest.foldl branchlessMin a = rest.foldl min a := by
  induction rest generalizing a with
  | nil => rfl
  | cons y ys ih =>
      have hy := hrest y (List.mem_cons_self y ys)
      have hb : branchlessMin a y = min a y :=
        branchlessMin_eq_min a y (by omega) (by omega)
      have hmin : 0 ≤ min a y ∧ min a y < 2 ^ 63 := by
        rcases min_cases a y with ⟨he, _⟩ | ⟨he, _⟩ <;> rw [he] <;> exact (by omega)
      calc (y :: ys).foldl branchlessMin a = ys.foldl branchlessMin (branchlessMin a y) := rfl
        _ = ys.foldl min (min a y) := by
              rw [hb]; exact ih (min a y) hmin (fun x hx => hrest x (List.mem_cons_of_mem y hx))
        _ = (y :: ys).foldl min a := rfl

/-! ### Masking by `capacity - 1` -/

theorem land_coe_coe (a b : ℕ) : Int.land (a : ℤ) (b : ℤ) = ((a &&& b : ℕ) : ℤ) := rfl

/-- `seq & (2^k - 1) = seq % 2^k` for non-negative sequences: the Go
slot-index computation `sequence & mask`. -/
theorem land_mask_eq_emod (k : ℕ) (seq : ℤ) (hseq : 0 ≤ seq) :
    Int.land seq ((2 : ℤ) ^ k - 1) = seq % 2 ^ k := by
  obtain ⟨a, rfl⟩ := Int.eq_ofNat_of_zero_le hseq
  have hpow : ((2 : ℤ) ^ k - 1) = (((2 ^ k - 1 : ℕ)) : ℤ) := by
    have : (1 : ℕ) ≤ 2 ^ k := Nat.one_le_two_pow
    push_cast [this]
    ring
  rw [hpow, land_coe_coe, Nat.and_pow_two_sub_one_eq_mod]
  push_cast
  rfl

/-! ### Power-of-two detection via `n & (n - 1) == 0` -/

theorem nat_and_pred_eq_zero_iff (n : ℕ) (hn : 0 < n) :
    n &&& (n - 1) = 0 ↔ ∃ k, n = 2 ^ k := by
  induction n using Nat.strong_induction_on with
  | _ n ih =>
    constructor
    · intro h
      rcases Nat.even_or_odd n with ⟨m, hm⟩ | ⟨m, hm⟩
      · -- n = 2 * m with m > 0
        have hm0 : 0 < m := by omega
        have hmand : m &&& (m - 1) = 0 := by
          apply Nat.eq_of_testBit_eq
          intro i
          have := congrArg (fun x => x.testBit (i + 1)) h
          simp only [Nat.testBit_and, Nat.zero_testBit] at this ⊢
          rw [Nat.testBit_succ, Nat.testBit_succ] at this
          have h2 : n / 2 = m := by omega
          have h3 : (n - 1) / 2 = m - 1 := by omega
          rw [h2, h3] at this
          exact this
        obtain ⟨k, hk⟩ := (ih m (by omega) hm0).mp hmand
        exact ⟨k + 1, by rw [pow_succ]; omega⟩
      · -- n = 2 * m + 1
        rcases Nat.eq_zero_or_pos m with rfl | hm0
        · exact ⟨0, by omega⟩
        · exfalso
          obtain ⟨i, hi⟩ := Nat.ne_zero_implies_bit_true (x := m) (by omega)
          have : (n &&& (n - 1)).testBit (i + 1) = false := by
            rw [h]; exact Nat.zero_testBit _
          rw [Nat.testBit_and, Nat.testBit_succ, Nat.testBit_succ] at this
          have h2 : n / 2 = m := by omega
          have h3 : (n - 1) / 2 = m := by omega
          rw [h2, h3, hi] at this
          simp at this
    · rintro ⟨k, rfl⟩
      rw [Nat.and_pow_two_sub_one_eq_mod]
      exact Nat.mod_self _

/-- The capacity check of `Builder.validate`
(`capacity <= 0 || capacity&(capacity-1) != 0`) rejects exactly the
values that are not positive powers of two. -/
theorem capacity_check_iff (capacity : ℤ) :
    (capacity ≤ 0 ∨ Int.land capacity (capacity - 1) ≠ 0) ↔
      ¬(0 < capacity ∧ ∃ k : ℕ, capacity = 2 ^ k) := by
  by_cases hpos : 0 < capacity
  · obtain ⟨c, rfl⟩ := Int.eq_ofNat_of_zero_le hpos.le
    have hc : 0 < c := by exact_mod_cast hpos
    have hco : ((c : ℤ)) - 1 = ((c - 1 : ℕ) : ℤ) := by omega
    rw [hco, land_coe_coe]
    have : (((c &&& (c - 1) : ℕ)) : ℤ) ≠ 0 ↔ c &&& (c - 1) ≠ 0 := by
      exact_mod_cast Iff.rfl.not
    rw [this]
    have hiff := nat_and_pred_eq_zero_iff c hc
    constructor
    · rintro (h | h)
      · omega
      · rintro ⟨-, k, hk⟩
        exact h (hiff.mpr ⟨k, by exact_mod_cast hk⟩)
    · intro h
      right
      intro hzero
      obtain ⟨k, hk⟩ := hiff.mp hzero
      exact h ⟨hpos, k, by exact_mod_cast hk⟩
  · constructor
    · intro _ h
      exact hpos h.1
    · intro _
      exact Or.inl (by omega)

/-! ### Basic lemmas about the model -/

theorem updateConsumer_self {α : Type} (s : DState α) (g k : ℕ) (c : Consumer α) :
    (updateConsumer s g k c).consumers g k = c := by
  simp [updateConsumer]

theorem updateConsumer_other {α : Type} (s : DState α) (g k : ℕ) (c : Consumer α)
    (g' k' : ℕ) (h : g' ≠ g ∨ k' ≠ k) :
    (updateConsumer s g k c).consumers g' k' = s.consumers g' k' := by
  rcases h with h | h
  · simp [updateConsumer, Function.update_noteq h]
  · by_cases hg : g' = g
    · subst hg
      simp [updateConsumer, Function.update_noteq h]
    · simp [updateConsumer, Function.update_noteq hg]

theorem groupMin_congr {α : Type} {s s' : DState α} {top : Topology} {g : ℕ}
    (h : ∀ k, (s'.consumers g k).cursor = (s.consumers g k).cursor) :
    groupMin s' top g = groupMin s top g := by
  unfold groupMin
  rw [h 0]
  congr 1
  exact List.map_congr_left fun k _ => h k

theorem groupMin_mono {α : Type} {s s' : DState α} {top : Topology} {g : ℕ}
    (h : ∀ k, (s.consumers g k).cursor ≤ (s'.consumers g k).cursor) :
    groupMin s top g ≤ groupMin s' top g := by
  apply le_foldl_min
  · exact le_trans (foldl_min_le_init _ _) (h 0)
  · intro x hx
    obtain ⟨k, hk, rfl⟩ := List.mem_map.mp hx
    obtain hk' := List.mem_range.mp hk
    refine le_trans ?_ (h k)
    exact foldl_min_le_mem _ _ _ (List.mem_map.mpr ⟨k, hk, rfl⟩)

theorem groupMin_le_cursor {α : Type} (s : DState α) (top : Topology) (g k : ℕ)
    (hk : k < top.groupSize g) :
    groupMin s top g ≤ (s.consumers g k).cursor :=
  foldl_min_le_mem _ _ _ (List.mem_map.mpr ⟨k, List.mem_range.mpr hk, rfl⟩)

theorem le_groupMin {α : Type} (s : DState α) (top : Topology) (g : ℕ) (c : ℤ)
    (h0 : c ≤ (s.consumers g 0).cursor)
    (h : ∀ k, k < top.groupSize g → c ≤ (s.consumers g k).cursor) :
    c ≤ groupMin s top g := by
  apply le_foldl_min _ _ _ h0
  intro x hx
  obtain ⟨k, hk, rfl⟩ := List.mem_map.mp hx
  exact h k (List.mem_range.mp hk)

theorem publishedList_zero {α : Type} (w : ℤ → α) : publishedList w 0 = [] := rfl

theorem publishedList_succ {α : Type} (w : ℤ → α) (m : ℤ) (hm : 0 ≤ m) :
    publishedList w (m + 1) = publishedList w m ++ [w (m + 1)] := by
  unfold publishedList
  have ht : (m + 1).toNat = m.toNat + 1 := by omega
  rw [ht, List.range_succ, List.map_append]
  simp only [List.map_cons, List.map_nil]
  have hcast : ((m.toNat + 1 : ℕ) : ℤ) = m + 1 := by omega
  rw [hcast]

theorem slot_eq_emod (K : ℕ) (seq : ℤ) (h : 0 ≤ seq) :
    slot ((2 : ℤ) ^ K - 1) seq = seq % 2 ^ K :=
  land_mask_eq_emod K seq h

/-- Two distinct sequences less than one capacity apart never share a slot. -/
theorem slot_ne_of_near (K : ℕ) (a b : ℤ) (ha : 0 ≤ a) (hb : 0 ≤ b)
    (hlt : 0 < a - b) (hsmall : a - b < 2 ^ K) :
    slot ((2 : ℤ) ^ K - 1) a ≠ slot ((2 : ℤ) ^ K - 1) b := by
  rw [slot_eq_emod K a ha, slot_eq_emod K b hb]
  intro h
  have h0 : (a - b) % 2 ^ K = 0 := by
    rw [Int.sub_emod, h]
    simp
  have hd : (2 : ℤ) ^ K ∣ a - b := Int.dvd_of_emod_eq_zero h0
  have := Int.le_of_dvd hlt hd
  omega

/-- Slots outside the written range are untouched. -/
theorem writeSeqs_out {α : Type} (w : ℤ → α) (mask : ℤ) (n : ℕ) (buf : ℤ → α)
    (lo idx : ℤ) (h : ∀ a : ℤ, lo ≤ a → a < lo + n → slot mask a ≠ idx) :
    writeSeqs w mask buf lo n idx = buf idx := by
  induction n generalizing buf lo with
  | zero => rfl
  | succ n ih =>
      show writeSeqs w mask (Function.update buf (slot mask lo) (w lo)) (lo + 1) n idx = buf idx
      rw [ih _ _ (fun a ha1 ha2 => h a (by omega) (by push_cast at ha2 ⊢; omega))]
      exact Function.update_noteq (Ne.symm (h lo le_rfl (by push_cast; omega))) _ _

/-- Written slots read back the written item (at most one capacity of
sequences is written, so the written slots are pairwise distinct). -/
theorem writeSeqs_in {α : Type} (w : ℤ → α) (K : ℕ) (n : ℕ) (buf : ℤ → α)
    (lo seq : ℤ) (hlo : 1 ≤ lo) (hn : (n : ℤ) ≤ 2 ^ K)
    (h1 : lo ≤ seq) (h2 : seq < lo + n) :
    writeSeqs w ((2 : ℤ) ^ K - 1) buf lo n (slot ((2 : ℤ) ^ K - 1) seq) = w seq := by
  induction n generalizing buf lo with
  | zero => push_cast at h2; omega
  | succ n ih =>
      show writeSeqs w _ (Function.update buf (slot _ lo) (w lo)) (lo + 1) n
        (slot ((2 : ℤ) ^ K - 1) seq) = w seq
      by_cases hseq : seq = lo
      · subst hseq
        rw [writeSeqs_out]
        · exact Function.update_same _ _ _
        · intro a ha1 ha2
          push_cast at ha2 hn
          exact slot_ne_of_near K a seq (by omega) (by omega) (by omega) (by omega)
      · push_cast at h2 hn
        exact ih _ (lo + 1) (by omega) (by omega) (by omega) (by omega)

theorem Inv.barrier_chain {α : Type} {w : ℤ → α} {cap : ℤ} {top : Topology}
    {s : DState α} (hinv : Inv w cap top s) (hvalid : top.Valid)
    (g : ℕ) (hg : g < top.numGroups) :
    barrierValue s top (g + 1) ≤ barrierValue s top g := by
  have h0 : 0 < top.groupSize g := hvalid.2 g hg
  calc barrierValue s top (g + 1) = groupMin s top g := rfl
    _ ≤ (s.consumers g 0).cursor := groupMin_le_cursor s top g 0 h0
    _ ≤ (s.consumers g 0).progress := hinv.cursor_le_progress g 0
    _ ≤ (s.consumers g 0).target := hinv.progress_le_target g 0
    _ ≤ barrierValue s top g := hinv.target_le_barrier g 0 hg h0

theorem Inv.barrier_antitone {α : Type} {w : ℤ → α} {cap : ℤ} {top : Topology}
    {s : DState α} (hinv : Inv w cap top s) (hvalid : top.Valid)
    (i j : ℕ) (hij : i ≤ j) (hj : j ≤ top.numGroups) :
    barrierValue s top j ≤ barrierValue s top i := by
  induction j with
  | zero => simp_all
  | succ j ihj =>
      rcases Nat.lt_or_ge i (j + 1) with h | h
      · exact le_trans (hinv.barrier_chain hvalid j (by omega)) (ihj (by omega) (by omega))
      · have : i = j + 1 := by omega
        subst this
        exact le_rfl

theorem Inv.barrier_le_wc {α : Type} {w : ℤ → α} {cap : ℤ} {top : Topology}
    {s : DState α} (hinv : Inv w cap top s) (hvalid : top.Valid)
    (g : ℕ) (hg : g ≤ top.numGroups) :
    barrierValue s top g ≤ s.writeCursor :=
  hinv.barrier_antitone hvalid 0 g (Nat.zero_le g) hg

theorem Inv.cached_le_cursor {α : Type} {w : ℤ → α} {cap : ℤ} {top : Topology}
    {s : DState α} (hinv : Inv w cap top s) (hvalid : top.Valid)
    (g k : ℕ) (hg : g < top.numGroups) (hk : k < top.groupSize g) :
    s.cached ≤ (s.consumers g k).cursor := by
  calc s.cached ≤ barrierValue s top top.numGroups := hinv.cached_le_barrier
    _ ≤ barrierValue s top (g + 1) :=
        hinv.barrier_antitone hvalid (g + 1) top.numGroups (by omega) le_rfl
    _ = groupMin s top g := rfl
    _ ≤ (s.consumers g k).cursor := groupMin_le_cursor s top g k hk

theorem barrierValue_succ_ext {α : Type} (s s' : DState α) (top : Topology)
    (hc : s'.consumers = s.consumers) (g : ℕ) :
    barrierValue s' top (g + 1) = barrierValue s top (g + 1) := by
  show groupMin s' top g = groupMin s top g
  unfold groupMin
  rw [hc]

theorem forall_consumers_update {α : Type} {P : ℕ → ℕ → Consumer α → Prop}
    (s : DState α) (g k : ℕ) (c : Consumer α)
    (hold : ∀ g' k', P g' k' (s.consumers g' k')) (hnew : P g k c) :
    ∀ g' k', P g' k' ((updateConsumer s g k c).consumers g' k') := by
  intro g' k'
  by_cases hg : g' = g
  · subst hg
    by_cases hk : k' = k
    · subst hk
      rw [updateConsumer_self]
      exact hnew
    · rw [updateConsumer_other _ _ _ _ _ _ (Or.inr hk)]
      exact hold _ _
  · rw [updateConsumer_other _ _ _ _ _ _ (Or.inl hg)]
    exact hold _ _

theorem barrierValue_update_eq {α : Type} (s : DState α) (top : Topology)
    (g k : ℕ) (c : Consumer α) (hc : c.cursor = (s.consumers g k).cursor) (g' : ℕ) :
    barrierValue (updateConsumer s g k c) top g' = barrierValue s top g' := by
  cases g' with
  | zero => rfl
  | succ g' =>
      show groupMin _ top g' = groupMin s top g'
      apply groupMin_congr
      intro k'
      by_cases hg : g' = g
      · subst hg
        by_cases hk : k' = k
        · subst hk
          rw [updateConsumer_self, hc]
        · rw [updateConsumer_other _ _ _ _ _ _ (Or.inr hk)]
      · rw [updateConsumer_other _ _ _ _ _ _ (Or.inl hg)]

theorem barrierValue_update_le {α : Type} (s : DState α) (top : Topology)
    (g k : ℕ) (c : Consumer α) (hc : (s.consumers g k).cursor ≤ c.cursor) (g' : ℕ) :
    barrierValue s top g' ≤ barrierValue (updateConsumer s g k c) top g' := by
  cases g' with
  | zero => exact le_rfl
  | succ g' =>
      show groupMin s top g' ≤ groupMin _ top g'
      apply groupMin_mono
      intro k'
      by_cases hg : g' = g
      · subst hg
        by_cases hk : k' = k
        · subst hk
          rw [updateConsumer_self]
          exact hc
        · rw [updateConsumer_other _ _ _ _ _ _ (Or.inr hk)]
      · rw [updateConsumer_other _ _ _ _ _ _ (Or.inl hg)]

theorem inv_init (α : Type) [Inhabited α] (w : ℤ → α) (cap : ℤ) (K : ℕ)
    (hcap : cap = 2 ^ K) (top : Topology) : Inv w cap top (initState α) := by
  have hcappos : (1 : ℤ) ≤ cap := by
    subst hcap
    have : (0 : ℤ) < 2 ^ K := pow_pos (by norm_num) K
    omega
  have hbar0 : ∀ g', 0 ≤ barrierValue (initState α) top g' := by
    intro g'
    cases g' with
    | zero => exact le_rfl
    | succ g' =>
        apply le_groupMin
        · exact le_rfl
        · intro k _
          exact le_rfl
  refine ⟨le_rfl, le_rfl, fun _ => rfl, le_rfl, show (0 : ℤ) + 0 ≤ 0 + cap - 1 by omega,
    hbar0 _, fun g k => le_rfl, fun g k => le_rfl, fun g k => le_rfl,
    fun g k _ _ => hbar0 g, fun g k => rfl, ?_⟩
  intro seq h1 h2 _
  have h2' : seq ≤ (0 : ℤ) + 0 := h2
  exact absurd (h1.trans h2') (by norm_num)

/-- The protocol invariant is preserved by every step. -/
theorem inv_step {α : Type} {w : ℤ → α} {cap : ℤ} {top : Topology} (K : ℕ)
    (hcap : cap = 2 ^ K) (hvalid : top.Valid) {s s' : DState α}
    (hinv : Inv w cap top s) (hstep : Step w cap top s s') : Inv w cap top s' := by
  have hcappos : (1 : ℤ) ≤ cap := by
    rw [hcap]
    have : (0 : ℤ) < 2 ^ K := pow_pos (by norm_num) K
    omega
  obtain ⟨g0, hg0⟩ : ∃ g0, top.numGroups = g0 + 1 :=
    ⟨top.numGroups - 1, by have := hvalid.1; omega⟩
  cases hstep with
  | writerBegin n hclosed hpend hn hgate =>
      have hbw : barrierValue s top top.numGroups ≤ s.writeCursor :=
        hinv.barrier_le_wc hvalid top.numGroups le_rfl
      have hcb := hinv.cached_le_barrier
      have hncap : n ≤ cap - 1 := by omega
      refine ⟨hinv.wc_nonneg, show (0 : ℤ) ≤ n by omega, ?_, hinv.cached_nonneg, ?_, ?_,
        hinv.cursor_nonneg, hinv.cursor_le_progress, hinv.progress_le_target, ?_,
        hinv.log_eq, ?_⟩
      · intro h
        have h' : s.closed = true := h
        rw [hclosed] at h'
        exact Bool.noConfusion h'
      · show s.writeCursor + n ≤ s.cached + cap - 1
        omega
      · rw [hg0]
        refine le_trans (hg0 ▸ hinv.cached_le_barrier) (le_of_eq ?_)
        exact (barrierValue_succ_ext s _ top rfl g0).symm
      · intro g k hg hk
        cases g with
        | zero => exact hinv.target_le_barrier 0 k hg hk
        | succ g => exact hinv.target_le_barrier (g + 1) k hg hk
      · intro seq h1 h2 h3
        have h2' : seq ≤ s.writeCursor + n := h2
        have h3' : s.writeCursor + n - cap < seq := h3
        show writeSeqs w (cap - 1) s.buffer (s.writeCursor + 1) n.toNat (slot (cap - 1) seq)
          = w seq
        subst hcap
        by_cases hnew : s.writeCursor + 1 ≤ seq
        · exact writeSeqs_in w K n.toNat s.buffer (s.writeCursor + 1) seq
            (by have := hinv.wc_nonneg; omega) (by omega) hnew (by omega)
        · rw [writeSeqs_out]
          · exact hinv.buffer_ok seq h1 (by omega) (by omega)
          · intro a ha1 ha2
            exact slot_ne_of_near K a seq (by omega) (by omega) (by omega) (by omega)
  | writerCommit hpendpos =>
      have hwn := hinv.wc_nonneg
      have hpn := hinv.pending_nonneg
      refine ⟨by show (0:ℤ) ≤ s.writeCursor + s.pending; omega, le_rfl, fun _ => rfl,
        hinv.cached_nonneg, ?_, ?_, hinv.cursor_nonneg, hinv.cursor_le_progress,
        hinv.progress_le_target, ?_, hinv.log_eq, ?_⟩
      · show s.writeCursor + s.pending + 0 ≤ s.cached + cap - 1
        have := hinv.gate
        omega
      · rw [hg0]
        refine le_trans (hg0 ▸ hinv.cached_le_barrier) (le_of_eq ?_)
        exact (barrierValue_succ_ext s _ top rfl g0).symm
      · intro g k hg hk
        cases g with
        | zero =>
            have h1 := hinv.target_le_barrier 0 k hg hk
            have h1' : (s.consumers 0 k).target ≤ s.writeCursor := h1
            show (s.consumers 0 k).target ≤ s.writeCursor + s.pending
            omega
        | succ g => exact hinv.target_le_barrier (g + 1) k hg hk
      · intro seq h1 h2 h3
        have h2' : seq ≤ s.writeCursor + s.pending + 0 := h2
        have h3' : s.writeCursor + s.pending + 0 - cap < seq := h3
        exact hinv.buffer_ok seq h1 (by omega) (by omega)
  | writerRefresh v hle hbar =>
      refine ⟨hinv.wc_nonneg, hinv.pending_nonneg, hinv.closed_pending,
        le_trans hinv.cached_nonneg hle, ?_, ?_, hinv.cursor_nonneg,
        hinv.cursor_le_progress, hinv.progress_le_target, ?_, hinv.log_eq,
        hinv.buffer_ok⟩
      · show s.writeCursor + s.pending ≤ v + cap - 1
        have := hinv.gate
        omega
      · rw [hg0]
        refine le_trans (hg0 ▸ hbar) (le_of_eq ?_)
        exact (barrierValue_succ_ext s _ top rfl g0).symm
      · intro g k hg hk
        cases g with
        | zero => exact hinv.target_le_barrier 0 k hg hk
        | succ g => exact hinv.target_le_barrier (g + 1) k hg hk
  | writerClose hpend =>
      refine ⟨hinv.wc_nonneg, hinv.pending_nonneg, fun _ => hpend,
        hinv.cached_nonneg, hinv.gate, ?_, hinv.cursor_nonneg,
        hinv.cursor_le_progress, hinv.progress_le_target, ?_, hinv.log_eq,
        hinv.buffer_ok⟩
      · rw [hg0]
        refine le_trans (hg0 ▸ hinv.cached_le_barrier) (le_of_eq ?_)
        exact (barrierValue_succ_ext s _ top rfl g0).symm
      · intro g k hg hk
        cases g with
        | zero => exact hinv.target_le_barrier 0 k hg hk
        | succ g => exact hinv.target_le_barrier (g + 1) k hg hk
  | readerSnapshot g k u hg hk hct hpt hcu hub =>
      have hbar : ∀ g', barrierValue
          (updateConsumer s g k { s.consumers g k with target := u }) top g'
          = barrierValue s top g' :=
        barrierValue_update_eq s top g k _ rfl
      refine ⟨hinv.wc_nonneg, hinv.pending_nonneg, hinv.closed_pending,
        hinv.cached_nonneg, hinv.gate, ?_, ?_, ?_, ?_, ?_, ?_, hinv.buffer_ok⟩
      · rw [hbar top.numGroups]
        exact hinv.cached_le_barrier
      · exact forall_consumers_update (P := fun g' k' c' => 0 ≤ c'.cursor) s g k _
          hinv.cursor_nonneg (hinv.cursor_nonneg g k)
      · exact forall_consumers_update (P := fun g' k' c' => c'.cursor ≤ c'.progress)
          s g k _ hinv.cursor_le_progress (hinv.cursor_le_progress g k)
      · refine forall_consumers_update (P := fun g' k' c' => c'.progress ≤ c'.target)
          s g k _ hinv.progress_le_target ?_
        show (s.consumers g k).progress ≤ u
        omega
      · have hmain : ∀ g' k', g' < top.numGroups → k' < top.groupSize g' →
            ((updateConsumer s g k { s.consumers g k with target := u }).consumers g' k').target
              ≤ barrierValue s top g' := by
          refine forall_consumers_update
            (P := fun g' k' c' => g' < top.numGroups → k' < top.groupSize g' →
              c'.target ≤ barrierValue s top g') s g k _ hinv.target_le_barrier ?_
          intro _ _
          exact hub
        intro g' k' h1 h2
        rw [hbar g']
        exact hmain g' k' h1 h2
      · exact forall_consumers_update
          (P := fun g' k' c' => c'.log = publishedList w c'.progress) s g k _
          hinv.log_eq (hinv.log_eq g k)
  | readerRead g k hg hk hpt =>
      have hbar : ∀ g', barrierValue (updateConsumer s g k
          { s.consumers g k with
            progress := (s.consumers g k).progress + 1,
            log := (s.consumers g k).log ++
              [s.buffer (slot (cap - 1) ((s.consumers g k).progress + 1))] }) top g'
          = barrierValue s top g' :=
        barrierValue_update_eq s top g k _ rfl
      have hp0 : 0 ≤ (s.consumers g k).progress :=
        le_trans (hinv.cursor_nonneg g k) (hinv.cursor_le_progress g k)
      have hbuf : s.buffer (slot (cap - 1) ((s.consumers g k).progress + 1))
          = w ((s.consumers g k).progress + 1) := by
        have h1 := hinv.target_le_barrier g k hg hk
        have h2 := hinv.barrier_le_wc hvalid g (by omega)
        have h3 := hinv.pending_nonneg
        have h4 := hinv.gate
        have h5 := hinv.cached_le_cursor hvalid g k hg hk
        have h6 := hinv.cursor_le_progress g k
        exact hinv.buffer_ok _ (by omega) (by omega) (by omega)
      refine ⟨hinv.wc_nonneg, hinv.pending_nonneg, hinv.closed_pending,
        hinv.cached_nonneg, hinv.gate, ?_, ?_, ?_, ?_, ?_, ?_, hinv.buffer_ok⟩
      · rw [hbar top.numGroups]
        exact hinv.cached_le_barrier
      · exact forall_consumers_update (P := fun g' k' c' => 0 ≤ c'.cursor) s g k _
          hinv.cursor_nonneg (hinv.cursor_nonneg g k)
      · refine forall_consumers_update (P := fun g' k' c' => c'.cursor ≤ c'.progress)
          s g k _ hinv.cursor_le_progress ?_
        show (s.consumers g k).cursor ≤ (s.consumers g k).progress + 1
        have := hinv.cursor_le_progress g k
        omega
      · refine forall_consumers_update (P := fun g' k' c' => c'.progress ≤ c'.target)
          s g k _ hinv.progress_le_target ?_
        show (s.consumers g k).progress + 1 ≤ (s.consumers g k).target
        omega
      · have hmain : ∀ g' k', g' < top.numGroups → k' < top.groupSize g' →
            ((updateConsumer s g k
              { s.consumers g k with
                progress := (s.consumers g k).progress + 1,
                log := (s.consumers g k).log ++
                  [s.buffer (slot (cap - 1) ((s.consumers g k).progress + 1))] }).consumers
                    g' k').target ≤ barrierValue s top g' := by
          refine forall_consumers_update
            (P := fun g' k' c' => g' < top.numGroups → k' < top.groupSize g' →
              c'.target ≤ barrierValue s top g') s g k _ hinv.target_le_barrier ?_
          intro h1 h2
          exact hinv.target_le_barrier g k h1 h2
        intro g' k' h1 h2
        rw [hbar g']
        exact hmain g' k' h1 h2
      · refine forall_consumers_update
          (P := fun g' k' c' => c'.log = publishedList w c'.progress) s g k _
          hinv.log_eq ?_
        show (s.consumers g k).log ++
            [s.buffer (slot (cap - 1) ((s.consumers g k).progress + 1))]
          = publishedList w ((s.consumers g k).progress + 1)
        rw [hinv.log_eq g k, hbuf, publishedList_succ w _ hp0]
  | readerPublish g k hg hk hpt hct =>
      have hble : ∀ g', barrierValue s top g' ≤ barrierValue (updateConsumer s g k
          { s.consumers g k with cursor := (s.consumers g k).target }) top g' :=
        barrierValue_update_le s top g k _ (le_of_lt hct)
      refine ⟨hinv.wc_nonneg, hinv.pending_nonneg, hinv.closed_pending,
        hinv.cached_nonneg, hinv.gate, ?_, ?_, ?_, ?_, ?_, ?_, hinv.buffer_ok⟩
      · exact le_trans hinv.cached_le_barrier (hble top.numGroups)
      · refine forall_consumers_update (P := fun g' k' c' => 0 ≤ c'.cursor) s g k _
          hinv.cursor_nonneg ?_
        show 0 ≤ (s.consumers g k).target
        have h1 := hinv.cursor_nonneg g k
        have h2 := hinv.cursor_le_progress g k
        have h3 := hinv.progress_le_target g k
        omega
      · refine forall_consumers_update (P := fun g' k' c' => c'.cursor ≤ c'.progress)
          s g k _ hinv.cursor_le_progress ?_
        show (s.consumers g k).target ≤ (s.consumers g k).progress
        omega
      · exact forall_consumers_update (P := fun g' k' c' => c'.progress ≤ c'.target)
          s g k _ hinv.progress_le_target (hinv.progress_le_target g k)
      · refine forall_consumers_update
          (P := fun g' k' c' => g' < top.numGroups → k' < top.groupSize g' →
            c'.target ≤ barrierValue (updateConsumer s g k
              { s.consumers g k with cursor := (s.consumers g k).target }) top g')
          s g k _ ?_ ?_
        · intro g' k' h1 h2
          exact le_trans (hinv.target_le_barrier g' k' h1 h2) (hble g')
        · intro h1 h2
          exact le_trans (hinv.target_le_barrier g k h1 h2) (hble g)
      · exact forall_consumers_update
          (P := fun g' k' c' => c'.log = publishedList w c'.progress) s g k _
          hinv.log_eq (hinv.log_eq g k)

/-- Every reachable state satisfies the protocol invariant. -/
theorem inv_reachable {α : Type} [Inhabited α] (w : ℤ → α) (cap : ℤ) (K : ℕ)
    (hcap : cap = 2 ^ K) (top : Topology) (hvalid : top.Valid) (s : DState α)
    (hs : Reachable w cap top s) : Inv w cap top s := by
  induction hs with
  | refl => exact inv_init α w cap K hcap top
  | tail _ hstep ih => exact inv_step K hcap hvalid ih hstep

/-! ### Claim theorems -/

/-- **C5**: for every capacity `C` that is a positive power of two
(within `int64` range, i.e. `K ≤ 62`) and all indices `i, j ∈ [0, C)`,
the branchless split `unwrap C i j` returns `(j - i + 1, 0)` when
`i ≤ j` and `(C - i, j + 1)` when `j < i`, and in both cases
`len1 + len2 = ((j - i) mod C) + 1`. -/
theorem unwrap_split (K : ℕ) (C i j : ℤ) (hC : C = 2 ^ K) (hK : K ≤ 62)
    (hi0 : 0 ≤ i) (hiC : i < C) (hj0 : 0 ≤ j) (hjC : j < C) :
    unwrap C i j = (if i ≤ j then ((j - i + 1 : ℤ), (0 : ℤ)) else (C - i, j + 1)) ∧
      (unwrap C i j).1 + (unwrap C i j).2 = (j - i) % C + 1 := by
  have hC63 : C ≤ 2 ^ 63 := by
    rw [hC]
    calc (2 : ℤ) ^ K ≤ 2 ^ 62 := pow_le_pow_right₀ (by norm_num) hK
      _ ≤ 2 ^ 63 := by norm_num
  have he := unwrap_eq_cond C i j hC63 hi0 hiC hj0 hjC
  refine ⟨he, ?_⟩
  rw [he]
  by_cases hij : i ≤ j
  · rw [if_pos hij]
    have hm : (j - i) % C = j - i := Int.emod_eq_of_lt (by omega) (by omega)
    rw [hm]
    ring
  · rw [if_neg hij]
    have h1 : (j - i + C * 1) % C = (j - i) % C := Int.add_mul_emod_self_left (j - i) C 1
    have h2 : (j - i + C) % C = j - i + C := Int.emod_eq_of_lt (by omega) (by omega)
    have hm : (j - i) % C = j - i + C := by
      calc (j - i) % C = (j - i + C * 1) % C := h1.symm
        _ = (j - i + C) % C := by ring_nf
        _ = j - i + C := h2
    rw [hm]
    simp only [Prod.fst, Prod.snd]
    ring

/-- Witness for C5 at `C = 4`, `i = 3`, `j = 1` (a wrapping range). -/
theorem unwrap_split_witness :
    (0 : ℤ) ≤ 3 ∧ (3 : ℤ) < 4 ∧ (0 : ℤ) ≤ 1 ∧ (1 : ℤ) < 4 ∧ unwrap 4 3 1 = (1, 2) := by
  have h := unwrap_split 2 4 3 1 (by norm_num) (by norm_num) (by norm_num) (by norm_num)
    (by norm_num) (by norm_num)
  refine ⟨by norm_num, by norm_num, by norm_num, by norm_num, ?_⟩
  rw [h.1]
  norm_num

/-- **C10**: for every capacity `C ≥ 1` (within `int64` range) and all
indices `i, j ∈ [0, C)`, `unwrap` returns `len1 ≥ 1` — the first
sub-range is never empty — and `len2 ≥ 0`. -/
theorem unwrap_first_len_pos (C i j : ℤ) (_hC1 : 1 ≤ C) (hC63 : C ≤ 2 ^ 63)
    (hi0 : 0 ≤ i) (hiC : i < C) (hj0 : 0 ≤ j) (hjC : j < C) :
    1 ≤ (unwrap C i j).1 ∧ 0 ≤ (unwrap C i j).2 := by
  rw [unwrap_eq_cond C i j hC63 hi0 hiC hj0 hjC]
  by_cases hij : i ≤ j
  · rw [if_pos hij]
    exact ⟨by simp; omega, by simp⟩
  · rw [if_neg hij]
    exact ⟨by simp; omega, by simp; omega⟩

/-- Witness for C10 at `C = 1`, `i = j = 0`. -/
theorem unwrap_first_len_pos_witness :
    1 ≤ (unwrap 1 0 0).1 ∧ 0 ≤ (unwrap 1 0 0).2 :=
  unwrap_first_len_pos 1 0 0 (by norm_num) (by norm_num) (by norm_num) (by norm_num)
    (by norm_num) (by norm_num)

/-- **C6**: for every non-empty list of loaded cursor values that are
valid sequences (non-negative `int64` values, so pairwise differences
cannot overflow), `MinimumBarrier.Load` — the pairwise reduction with
`min = a + ((b - a) & ((b - a) >> 63))` — returns the minimum of the
values: an element of the list that is a lower bound of the list. -/
theorem minimumBarrierLoad_spec (l : List ℤ) (hne : l ≠ [])
    (hbound : ∀ x ∈ l, 0 ≤ x ∧ x < 2 ^ 63) :
    minimumBarrierLoad l ∈ l ∧ ∀ x ∈ l, minimumBarrierLoad l ≤ x := by
  obtain ⟨b, rest, rfl⟩ : ∃ b rest, l = b :: rest := by
    cases l with
    | nil => exact absurd rfl hne
    | cons b rest => exact ⟨b, rest, rfl⟩
  have hload : minimumBarrierLoad (b :: rest) = rest.foldl min b := by
    show rest.foldl branchlessMin b = rest.foldl min b
    exact minimumBarrierLoad_foldl rest b (hbound b (List.mem_cons_self b rest))
      (fun x hx => hbound x (List.mem_cons_of_mem b hx))
  rw [hload]
  constructor
  · rcases foldl_min_mem rest b with h | h
    · rw [h]
      exact List.mem_cons_self b rest
    · exact List.mem_cons_of_mem b h
  · intro x hx
    rcases List.mem_cons.mp hx with rfl | hx'
    · exact foldl_min_le_init rest x
    · exact foldl_min_le_mem rest b x hx'

/-- Witness for C6 on the cursor values `[3, 1, 2]`: the branchless
reduction returns `1`. -/
theorem minimumBarrierLoad_spec_witness :
    minimumBarrierLoad [3, 1, 2] = 1 ∧ minimumBarrierLoad [3, 1, 2] ∈ [(3 : ℤ), 1, 2] := by
  have h := minimumBarrierLoad_spec [3, 1, 2] (by simp) (by decide)
  exact ⟨by decide, h.1⟩

/-- **C2**: the claim says the reserve step waits only while
`next > cached_slowest + capacity`, and in particular proceeds when
`next = cached_slowest + capacity`.  The code's loop condition is
`nextWriter >= slowestReader.Val + capacity`, which *does* wait at
equality: with `capacity = 1`, `cached_slowest = 0`, `next = 1` (the
very first `Write` on an empty buffer) the wait condition is true even
though the claimed strict condition is false; likewise for
`capacity = 2` and the second `Write`.  A capacity-1 disruptor can
therefore never complete any `Write`, and `WriteBatch(n = capacity)` —
which the `n > capacity` guard explicitly admits — can never commit,
because the barrier can never exceed the write cursor. -/
theorem reserve_waits_at_equality :
    reserveWaitCondition 1 0 1 = true ∧ ¬ ((1 : ℤ) > 0 + 1) ∧
      reserveWaitCondition 2 0 2 = true ∧ ¬ ((2 : ℤ) > 0 + 2) := by
  refine ⟨by decide, by norm_num, by decide, by norm_num⟩

/-- C3 counterexample: `WriteBatch(0)` on an open capacity-1 disruptor
does **not** fail with `BatchTooLarge` (the code only checks
`n > capacity`; claim says every `n` outside `[1, capacity]` is
rejected). -/
theorem writeBatch_zero_not_rejected :
    writeBatchGuard 1 0 false = none ∧
      (none : Option WriteError) ≠ some WriteError.batchTooLarge := by
  refine ⟨by decide, by decide⟩

/-- **C3 (amended)**: `WriteBatch(n, f)` fails with `BatchTooLarge`
exactly when `n > capacity` — `n = 0` and negative `n` are *not*
rejected — and on an open disruptor every `n ≤ capacity` passes the
guards without error. -/
theorem writeBatch_guard_spec (capacity n : ℤ) (closed : Bool) :
    (writeBatchGuard capacity n closed = some WriteError.batchTooLarge ↔ n > capacity) ∧
      (closed = false → n ≤ capacity → writeBatchGuard capacity n closed = none) := by
  unfold writeBatchGuard
  constructor
  · by_cases h : n > capacity
    · rw [if_pos h]
      simp [h]
    · rw [if_neg h]
      cases closed <;> simp [h]
  · intro hc hn
    rw [if_neg (by omega), hc]
    simp

/-- Witness for C3's amended guard characterisation at capacity 4. -/
theorem writeBatch_guard_spec_witness :
    writeBatchGuard 4 5 false = some WriteError.batchTooLarge ∧
      writeBatchGuard 4 3 false = none :=
  ⟨(writeBatch_guard_spec 4 5 false).1.mpr (by norm_num),
   (writeBatch_guard_spec 4 3 false).2 rfl (by norm_num)⟩

/-- **C9**: on the try-only variant with capacity 2 starting empty, the
first two `TryPublish` calls return `true`, the third returns `false`
leaving the state untouched, and after one `TryConsume` the next
`TryPublish` returns `true` again. -/
theorem try_variant_saturation :
    newRingBuffer ℤ 2 = some rb0 ∧
    (tryPublish rb0 10).2 = true ∧
    (tryPublish (tryPublish rb0 10).1 20).2 = true ∧
    (tryPublish (tryPublish (tryPublish rb0 10).1 20).1 30).2 = false ∧
    (tryPublish (tryPublish (tryPublish rb0 10).1 20).1 30).1
      = (tryPublish (tryPublish rb0 10).1 20).1 ∧
    (tryConsume (tryPublish (tryPublish rb0 10).1 20).1).2.2 = true ∧
    (tryPublish (tryConsume (tryPublish (tryPublish rb0 10).1 20).1).1 40).2 = true :=
  ⟨rfl, rfl, rfl, rfl, rfl, rfl, rfl⟩

/-- C7 counterexample: on a closed capacity-1 disruptor, `WriteBatch`
with `n = 2` fails with `BatchTooLarge`, not `WriteAfterClose` (the
batch-size guard runs before the closed check). -/
theorem writeBatch_after_close_not_writeAfterClose :
    writeBatchGuard 1 2 true = some WriteError.batchTooLarge ∧
      some WriteError.batchTooLarge ≠ some WriteError.writeAfterClose := by
  refine ⟨by decide, by decide⟩

/-- **C7 (amended)**: once `Close()` has been called, every subsequent
`Write` fails with `WriteAfterClose`, every subsequent `WriteBatch`
fails with `WriteAfterClose` when `n ≤ capacity` and with
`BatchTooLarge` when `n > capacity`, and in all cases nothing is
published: along every step sequence from a reachable closed state the
close flag stays set, the write cursor never advances, and no buffer
slot is mutated. -/
theorem write_after_close {α : Type} [Inhabited α] (w : ℤ → α) (cap : ℤ) (K : ℕ)
    (hcap : cap = 2 ^ K) (top : Topology) (hvalid : top.Valid) (s s' : DState α)
    (hs : Reachable w cap top s) (hclosed : s.closed = true)
    (hsteps : Relation.ReflTransGen (Step w cap top) s s') :
    s'.closed = true ∧ s'.writeCursor = s.writeCursor ∧ s'.buffer = s.buffer ∧
      writeGuard s.closed = some WriteError.writeAfterClose ∧
      (∀ n : ℤ, n ≤ cap → writeBatchGuard cap n s.closed = some WriteError.writeAfterClose) ∧
      (∀ n : ℤ, n > cap → writeBatchGuard cap n s.closed = some WriteError.batchTooLarge) := by
  have hinv := inv_reachable w cap K hcap top hvalid s hs
  have hpend := hinv.closed_pending hclosed
  have key : s'.closed = true ∧ s'.pending = 0 ∧ s'.writeCursor = s.writeCursor ∧
      s'.buffer = s.buffer := by
    induction hsteps with
    | refl => exact ⟨hclosed, hpend, rfl, rfl⟩
    | tail _ step ih =>
        obtain ⟨ihc, ihp, ihw, ihb⟩ := ih
        cases step with
        | writerBegin n h1 h2 h3 h4 =>
            rw [ihc] at h1
            exact Bool.noConfusion h1
        | writerCommit hp =>
            rw [ihp] at hp
            exact absurd hp (by norm_num)
        | writerRefresh v h1 h2 => exact ⟨ihc, ihp, ihw, ihb⟩
        | writerClose h1 => exact ⟨rfl, ihp, ihw, ihb⟩
        | readerSnapshot g k u h1 h2 h3 h4 h5 h6 => exact ⟨ihc, ihp, ihw, ihb⟩
        | readerRead g k h1 h2 h3 => exact ⟨ihc, ihp, ihw, ihb⟩
        | readerPublish g k h1 h2 h3 h4 => exact ⟨ihc, ihp, ihw, ihb⟩
  refine ⟨key.1, key.2.2.1, key.2.2.2, ?_, ?_, ?_⟩
  · rw [hclosed]
    rfl
  · intro n hn
    rw [hclosed]
    unfold writeBatchGuard
    rw [if_neg (by omega)]
    rfl
  · intro n hn
    unfold writeBatchGuard
    rw [if_pos hn]

theorem build_eq_ok_iff {R : Type} (capacity : ℤ) (groups : List (List R)) :
    build capacity groups = Except.ok ⟨capacity, capacity - 1⟩ ↔
      validate capacity groups = none := by
  unfold build
  cases hv : validate capacity groups with
  | none => simp
  | some e => simp

/-- C8 counterexample: `capacity = 7` with zero declared groups yields
`ErrCapacity`, not `ErrMissingReaderGroup` — the capacity check runs
first, so "ErrMissingReaderGroup whenever zero reader groups were
declared" fails as stated. -/
theorem validate_capacity_masks_groups :
    validate (R := Unit) 7 [] = some BuildError.errCapacity ∧
      some BuildError.errCapacity ≠ some BuildError.errMissingReaderGroup := by
  constructor
  · have hbad : (7 : ℤ) ≤ 0 ∨ Int.land 7 (7 - 1) ≠ 0 := by
      apply (capacity_check_iff 7).mpr
      rintro ⟨-, k, hk⟩
      rcases Nat.lt_or_ge k 3 with h | h
      · interval_cases k <;> norm_num at hk
      · have h8 : (2 : ℤ) ^ 3 ≤ 2 ^ k := pow_le_pow_right₀ (by norm_num) h
        norm_num at h8
        omega
    unfold validate
    rw [if_pos hbad]
  · decide

/-- **C8 (amended)**: the construction checks are applied in source
order, so an invalid capacity masks the group errors.  `validate`
returns `ErrCapacity` iff the capacity is not a positive power of two;
with a valid capacity it returns `ErrMissingReaderGroup` iff no group
was declared; with a valid capacity and at least one group it returns
`ErrEmptyReaderGroup` iff some declared group is empty; it succeeds iff
all three checks pass, and then `Build` returns the (non-nil) disruptor
with `mask = capacity - 1`. -/
theorem build_validation {R : Type} (capacity : ℤ) (groups : List (List R)) :
    (validate capacity groups = some BuildError.errCapacity ↔
      ¬(0 < capacity ∧ ∃ k : ℕ, capacity = 2 ^ k)) ∧
    ((0 < capacity ∧ ∃ k : ℕ, capacity = 2 ^ k) →
      (validate capacity groups = some BuildError.errMissingReaderGroup ↔ groups = [])) ∧
    ((0 < capacity ∧ ∃ k : ℕ, capacity = 2 ^ k) → groups ≠ [] →
      (validate capacity groups = some BuildError.errEmptyReaderGroup ↔
        ∃ gr ∈ groups, gr = [])) ∧
    (validate capacity groups = none ↔
      ((0 < capacity ∧ ∃ k : ℕ, capacity = 2 ^ k) ∧ groups ≠ [] ∧
        ∀ gr ∈ groups, gr ≠ [])) ∧
    (build capacity groups = Except.ok ⟨capacity, capacity - 1⟩ ↔
      validate capacity groups = none) := by
  have hcc := capacity_check_iff capacity
  by_cases hbad : capacity ≤ 0 ∨ Int.land capacity (capacity - 1) ≠ 0
  · have hng : ¬(0 < capacity ∧ ∃ k : ℕ, capacity = 2 ^ k) := hcc.mp hbad
    have hv : validate capacity groups = some BuildError.errCapacity := by
      unfold validate
      rw [if_pos hbad]
    rw [hv]
    refine ⟨by simp [hng], fun hgood => absurd hgood hng, fun hgood _ => absurd hgood hng,
      by simp [hng], ?_⟩
    refine iff_of_false (fun hb => ?_) (by simp)
    rw [build_eq_ok_iff, hv] at hb
    exact Option.noConfusion hb
  · have hgood : 0 < capacity ∧ ∃ k : ℕ, capacity = 2 ^ k := by
      by_contra hng
      exact hbad (hcc.mpr hng)
    by_cases hlen : groups.length = 0
    · have hnil : groups = [] := List.length_eq_zero.mp hlen
      have hv : validate capacity groups = some BuildError.errMissingReaderGroup := by
        unfold validate
        rw [if_neg hbad, if_pos hlen]
      rw [hv]
      refine ⟨iff_of_false (by simp) (not_not_intro hgood),
        fun _ => iff_of_true rfl hnil, fun _ hne => absurd hnil hne,
        iff_of_false (by simp) (by simp [hnil]), ?_⟩
      refine iff_of_false (fun hb => ?_) (by simp)
      rw [build_eq_ok_iff, hv] at hb
      exact Option.noConfusion hb
    · have hne : groups ≠ [] := by
        intro h
        rw [h] at hlen
        exact hlen rfl
      by_cases hany : groups.any (fun readerGroup => readerGroup.length = 0) = true
      · have hv : validate capacity groups = some BuildError.errEmptyReaderGroup := by
          unfold validate
          rw [if_neg hbad, if_neg hlen, if_pos hany]
        rw [hv]
        have hex : ∃ gr ∈ groups, gr = [] := by
          obtain ⟨gr, hmem, hgr⟩ := List.any_eq_true.mp hany
          exact ⟨gr, hmem, by simpa using hgr⟩
        refine ⟨iff_of_false (by simp) (not_not_intro hgood),
          fun _ => iff_of_false (by simp) hne,
          fun _ _ => iff_of_true rfl hex,
          iff_of_false (by simp) ?_, ?_⟩
        · rintro ⟨-, -, hall⟩
          obtain ⟨gr, hmem, hgr⟩ := hex
          exact hall gr hmem hgr
        · refine iff_of_false (fun hb => ?_) (by simp)
          rw [build_eq_ok_iff, hv] at hb
          exact Option.noConfusion hb
      · have hv : validate capacity groups = none := by
          unfold validate
          rw [if_neg hbad, if_neg hlen, if_neg hany]
        rw [hv]
        have hall : ∀ gr ∈ groups, gr ≠ [] := by
          intro gr hmem hgr
          apply hany
          refine List.any_eq_true.mpr ⟨gr, hmem, ?_⟩
          simp [hgr]
        refine ⟨iff_of_false (by simp) (not_not_intro hgood),
          fun _ => iff_of_false (by simp) hne,
          fun _ _ => iff_of_false (by simp) ?_,
          iff_of_true rfl ⟨hgood, hne, hall⟩,
          iff_of_true ((build_eq_ok_iff capacity groups).mpr hv) rfl⟩
        rintro ⟨gr, hmem, hgr⟩
        exact hall gr hmem hgr

/-- Witness for C8's amended characterisation: valid capacity with no
groups gives `ErrMissingReaderGroup`; a fully valid configuration
validates cleanly. -/
theorem build_validation_witness :
    validate (R := Unit) 4 [] = some BuildError.errMissingReaderGroup ∧
      validate (R := Unit) 4 [[()]] = none := by
  have h1 := (build_validation (R := Unit) 4 []).2.1 ⟨by norm_num, 2, by norm_num⟩
  have h2 := (build_validation (R := Unit) 4 [[()]]).2.2.2.1
  refine ⟨h1.mpr rfl, h2.mpr ⟨⟨by norm_num, 2, by norm_num⟩, by simp, by decide⟩⟩

theorem runTop_valid : runTop.Valid := ⟨by decide, fun g _ => show 0 < 1 by decide⟩

theorem runS5_reachable : Reachable wId 2 runTop runS5 := by
  have h1 : Step wId 2 runTop (initState ℤ) runS1 :=
    Step.writerBegin (initState ℤ) 1 rfl rfl (by norm_num) (by decide)
  have h2 : Step wId 2 runTop runS1 runS2 :=
    Step.writerCommit runS1 (by decide)
  have h3 : Step wId 2 runTop runS2 runS3 :=
    Step.readerSnapshot runS2 0 0 1 (by decide) (by decide) rfl rfl (by decide) (by decide)
  have h4 : Step wId 2 runTop runS3 runS4 :=
    Step.readerRead runS3 0 0 (by decide) (by decide) (by decide)
  have h5 : Step wId 2 runTop runS4 runS5 :=
    Step.readerPublish runS4 0 0 (by decide) (by decide) (by decide) (by decide)
  exact Relation.ReflTransGen.tail (Relation.ReflTransGen.tail (Relation.ReflTransGen.tail
    (Relation.ReflTransGen.tail (Relation.ReflTransGen.tail Relation.ReflTransGen.refl h1)
      h2) h3) h4) h5

theorem runClosed_reachable : Reachable wId 2 runTop runClosed :=
  Relation.ReflTransGen.tail Relation.ReflTransGen.refl (Step.writerClose (initState ℤ) rfl)

/-- **C1**: in every reachable state of the pipeline model, every
consumer's callback log equals the published items at sequences
`1..progress`, in ascending sequence order with each sequence exactly
once, and is a prefix of the full write sequence; a consumer that has
caught up with the write cursor has observed exactly the items of `W`
(the items published at sequences `1..writeCursor`). -/
theorem exact_delivery {α : Type} [Inhabited α] (w : ℤ → α) (cap : ℤ) (K : ℕ)
    (hcap : cap = 2 ^ K) (top : Topology) (hvalid : top.Valid)
    (s : DState α) (hs : Reachable w cap top s)
    (g k : ℕ) (hg : g < top.numGroups) (hk : k < top.groupSize g) :
    (s.consumers g k).log = publishedList w (s.consumers g k).progress ∧
      0 ≤ (s.consumers g k).progress ∧
      (s.consumers g k).progress ≤ s.writeCursor ∧
      ((s.consumers g k).progress = s.writeCursor →
        (s.consumers g k).log = publishedList w s.writeCursor) := by
  have hinv := inv_reachable w cap K hcap top hvalid s hs
  have hp0 : 0 ≤ (s.consumers g k).progress :=
    le_trans (hinv.cursor_nonneg g k) (hinv.cursor_le_progress g k)
  have hpw : (s.consumers g k).progress ≤ s.writeCursor := by
    have h1 := hinv.progress_le_target g k
    have h2 := hinv.target_le_barrier g k hg hk
    have h3 := hinv.barrier_le_wc hvalid g (by omega)
    omega
  refine ⟨hinv.log_eq g k, hp0, hpw, fun hdrain => ?_⟩
  rw [hinv.log_eq g k, hdrain]

/-- Witness for C1 on the concrete run: the reader observed exactly
`[1]`, the one item written. -/
theorem exact_delivery_witness :
    (runS5.consumers 0 0).log = publishedList wId (runS5.consumers 0 0).progress ∧
      (runS5.consumers 0 0).log = [1] ∧ runS5.writeCursor = 1 := by
  have h := exact_delivery wId 2 1 (by norm_num) runTop runTop_valid runS5
    runS5_reachable 0 0 (by decide) (by decide)
  refine ⟨h.1, ?_, by decide⟩
  rw [h.2.2.2 (by decide)]
  decide

/-- **C4**: in every reachable state of the writer/consumer step
relation, the write cursor is at most `capacity` ahead of every
consumer's cursor — hence of the slowest downstream cursor — and the
writer's cached copy of the slowest-downstream barrier never exceeds
the barrier's true value. -/
theorem bounded_lag {α : Type} [Inhabited α] (w : ℤ → α) (cap : ℤ) (K : ℕ)
    (hcap : cap = 2 ^ K) (top : Topology) (hvalid : top.Valid)
    (s : DState α) (hs : Reachable w cap top s) :
    (∀ g k, g < top.numGroups → k < top.groupSize g →
      s.writeCursor - (s.consumers g k).cursor ≤ cap) ∧
      s.cached ≤ barrierValue s top top.numGroups := by
  have hinv := inv_reachable w cap K hcap top hvalid s hs
  refine ⟨?_, hinv.cached_le_barrier⟩
  intro g k hg hk
  have h1 := hinv.gate
  have h2 := hinv.cached_le_cursor hvalid g k hg hk
  have h3 := hinv.pending_nonneg
  omega

/-- Witness for C4 on the concrete run. -/
theorem bounded_lag_witness :
    runS5.writeCursor - (runS5.consumers 0 0).cursor ≤ 2 ∧
      runS5.cached ≤ barrierValue runS5 runTop runTop.numGroups := by
  have h := bounded_lag wId 2 1 (by norm_num) runTop runTop_valid runS5 runS5_reachable
  exact ⟨h.1 0 0 (by decide) (by decide), h.2⟩

/-- Witness for C7: a freshly closed disruptor refuses `Write` and
in-range `WriteBatch` with `WriteAfterClose`, and its state is frozen
under the empty step sequence. -/
theorem write_after_close_witness :
    writeGuard runClosed.closed = some WriteError.writeAfterClose ∧
      writeBatchGuard 2 2 runClosed.closed = some WriteError.writeAfterClose ∧
      runClosed.closed = true := by
  have h := write_after_close wId 2 1 (by norm_num) runTop runTop_valid runClosed runClosed
    runClosed_reachable rfl Relation.ReflTransGen.refl
  exact ⟨h.2.2.2.1, h.2.2.2.2.1 2 (by norm_num), h.1⟩

end GoDisruptor
